import Mathlib

/-!
Verification of the path-matching and unique-file-enumeration utility of
`utils.py` (class `PathMatcher` and function `find_unique_paths`).

The filesystem is modelled as a finite tree: a node is either a non-directory
entry carrying its `stat` type (regular file, symbolic link, character device,
block device, or other special file), or a directory with a readability flag
(an unreadable directory is one on which `os.listdir` raises) and a list of
named children.  `os.stat(..., follow_symlinks=False)` on a tree node returns
the node's own type, so a symbolic link is always an opaque leaf.

Operating-system primitives used by `PathMatcher` (`os.path.isdir`,
`glob.glob`, `os.stat`, `os.path.realpath`, `os.path.relpath`) are standard
library calls, not code of this repository; they are modelled as an explicit
environment record of oracles, and concrete claims instantiate the record
with the documented behaviour of those primitives on the claim's fixture.
-/

/-- Stat type of a non-directory filesystem object, as classified by the
`stat.S_ISLNK` / `S_ISCHR` / `S_ISBLK` / `S_ISREG` macros used in the source.
`other` covers the remaining special types (FIFOs, sockets). -/
inductive FMode where
  | reg
  | lnk
  | chr
  | blk
  | other
deriving DecidableEq, Repr

/-- Result of `os.stat(path, follow_symlinks=False)`: either a directory or a
non-directory object with its `FMode`. -/
inductive StatMode where
  | sdir
  | sfile (m : FMode)
deriving DecidableEq, Repr

/-- A filesystem tree.  `file m` is a non-directory object of stat type `m`;
`dir readable entries` is a directory whose `os.listdir` succeeds exactly when
`readable` is true, with named children `entries` (in unspecified on-disk
order; the code sorts the names itself). -/
inductive FSNode where
  | file (m : FMode)
  | dir (readable : Bool) (entries : List (String × FSNode))

/-- Induction principle for `FSNode` giving the inductive hypothesis for every
child of a directory. -/
theorem FSNode.inductionOn (P : FSNode → Prop)
    (hfile : ∀ m, P (.file m))
    (hdir : ∀ r es, (∀ e ∈ es, P e.2) → P (.dir r es)) : ∀ t, P t :=
  fun t =>
    @FSNode.rec P (fun es => ∀ e ∈ es, P e.2) (fun e => P e.2)
      hfile
      (fun r es ih => hdir r es ih)
      (fun e he => absurd he (List.not_mem_nil e))
      (fun _ _ hh ht e he => by
        rcases List.mem_cons.mp he with h | h
        · exact h ▸ hh
        · exact ht e h)
      (fun _ _ hc => hc)
      t

/-- True when the node is a directory: the `stat.S_ISDIR(st_mode)` test of the
source. -/
def isDirNode : FSNode → Bool
  | .dir _ _ => true
  | .file _ => false

/-- Lexicographic comparison of character lists by code point, the order used
by Python's `sorted` on strings (a proper leading part compares as smaller). -/
def charListLe : List Char → List Char → Bool
  | [], _ => true
  | _ :: _, [] => false
  | a :: as, b :: bs => if a < b then true else if b < a then false else charListLe as bs

/-- Python string comparison `a <= b`, by code points. -/
def strLe (a b : String) : Bool := charListLe a.data b.data

/-- Python `path.startswith(pat)`: `pat.data` is a leading part of `path.data`. -/
def startsWithStr (path pat : String) : Bool := pat.data.isPrefixOf path.data

/-- Default exclusion list of `find_unique_paths` (`DefaultExcludeFileNames`
in the source). -/
def DefaultExcludeFileNames : List String := [".git"]

/-- Path joining of `make_info` in the source: at the root level
(`dir_path == '.'`) the child's path is the bare file name, otherwise
`f'{dir_path}/{file_name}'`. -/
def joinPath (dir_path file_name : String) : String :=
  if dir_path = "." then file_name else dir_path ++ "/" ++ file_name

/-- Sort a list of `(name, node, result)` scan records by name, the
`sorted(os.listdir(...))` step of `scan_path`. -/
def sortInfos {α : Type} (l : List (String × FSNode × α)) : List (String × FSNode × α) :=
  List.insertionSort (fun i j => strLe i.1 j.1 = true) l

/-- Sort a list of names, as Python's `sorted` on the `os.listdir` result. -/
def sortNames (l : List String) : List String :=
  List.insertionSort (fun a b => strLe a b = true) l

mutual
/-- The recursive `scan_path` of `find_unique_paths`, on the success path
(no filesystem error): list the children, sort the names, drop excluded
names, recurse into every directory child in sorted order, then append every
regular non-link non-device child of this level in sorted order.  The child
records (with each directory child's recursive result) are produced by
`scan_entries`; sorting and exclusion are applied to the records exactly as
the source applies them to the names, so results of excluded or
non-directory children are dropped unused. -/
def scan_path (excl : List String) (dir_path : String) : FSNode → List String
  | .file _ => []
  | .dir _ es =>
      let kept := (sortInfos (scan_entries excl dir_path es)).filter
        (fun i => !(excl.contains i.1))
      ((kept.map (fun i => if isDirNode i.2.1 then i.2.2 else [])).flatten)
        ++ kept.filterMap (fun i =>
            match i.2.1 with
            | FSNode.file FMode.reg => some (joinPath dir_path i.1)
            | _ => none)

/-- Child records for `scan_path`: each child's name, node, and the recursive
scan of that child rooted at `joinPath dir_path name`. -/
def scan_entries (excl : List String) (dir_path : String) :
    List (String × FSNode) → List (String × FSNode × List String)
  | [] => []
  | (n, c) :: rest =>
      (n, c, scan_path excl (joinPath dir_path n) c) :: scan_entries excl dir_path rest
end

/-- Sequence the recursive results of the subdirectory loop: the first raised
exception aborts, otherwise the partial lists are concatenated in loop
order. -/
def seqResults : List (Except String (List String)) → Except String (List String)
  | [] => .ok []
  | .error e :: _ => .error e
  | .ok l :: rest => (seqResults rest).map (fun t => l ++ t)

mutual
/-- The recursive `scan_path` of `find_unique_paths` with error propagation:
`os.listdir` on an unreadable directory (or on a non-directory root) raises,
and the exception aborts the whole enumeration; the error value is the
relative path of the failing directory.  Excluded children are never
visited, so an unreadable excluded directory raises nothing. -/
def scan_pathE (excl : List String) (dir_path : String) : FSNode → Except String (List String)
  | .file _ => .error dir_path
  | .dir false _ => .error dir_path
  | .dir true es =>
      let kept := (sortInfos (scan_entriesE excl dir_path es)).filter
        (fun i => !(excl.contains i.1))
      (seqResults (kept.map (fun i => if isDirNode i.2.1 then i.2.2 else Except.ok []))).map
        (fun sub => sub ++ kept.filterMap (fun i =>
            match i.2.1 with
            | FSNode.file FMode.reg => some (joinPath dir_path i.1)
            | _ => none))

/-- Child records for `scan_pathE`: excluded children are guarded (the source
never recurses into them), non-directory children's records are never
consulted. -/
def scan_entriesE (excl : List String) (dir_path : String) :
    List (String × FSNode) → List (String × FSNode × Except String (List String))
  | [] => []
  | (n, c) :: rest =>
      (n, c,
        if excl.contains n then Except.ok []
        else scan_pathE excl (joinPath dir_path n) c)
        :: scan_entriesE excl dir_path rest
end

/-- `find_unique_paths(root_dir, exclude_file_names)` of the source: resolve
the root (the tree is the resolved root) and run `scan_path('.')`.  A
filesystem error anywhere aborts with the error, otherwise the accumulated
path list is returned. -/
def find_unique_paths (root : FSNode)
    (exclude_file_names : List String := DefaultExcludeFileNames) :
    Except String (List String) :=
  scan_pathE exclude_file_names "." root

/-- Environment of operating-system primitives consumed by
`PathMatcher.__init__`.  `isdir` is `os.path.isdir` (follows symlinks, false
for a missing path); `globList` is `glob.glob(pattern, recursive=True)` in
returned order; `lstatMode` is `os.stat(path, follow_symlinks=False).st_mode`;
`realpath` is `os.path.realpath(os.path.abspath(...))`; `relpath p r` is
`os.path.relpath(p, r)`. -/
structure MatcherEnv where
  isdir : String → Bool
  globList : String → List String
  lstatMode : String → StatMode
  realpath : String → String
  relpath : String → String → String

/-- The constructed matcher state: `prefixes` and `files_set` of the source.
The source also stores `files = list(files_set)`; `matches` tests membership
in that list, which holds exactly the members of `files_set`, so only the set
is modelled. -/
structure PathMatcher where
  prefixes : List String
  files_set : Finset String

/-- Python `'*' in subpath`. -/
def hasStar (s : String) : Bool := s.data.contains '*'

/-- One iteration of the glob loop of `PathMatcher.__init__`, on the state
`(wild_set, wild_links, printed)`: skip directories; record a symbolic link
in `wild_links` (printing `link: ...`) and skip it; skip character and block
devices and any other non-regular file; skip a regular file whose path starts
with a previously recorded link (`is_link_prefixed`; the source's parameter
`path` is shadowed by the loop variable `wild_file`, with the same value at
every call); add any surviving regular file, relative to the root when a root
is set (printing `add: ...` in that case). -/
def globStep (env : MatcherEnv) (root_dir : Option String)
    (acc : Finset String × List String × List String) (wild_file : String) :
    Finset String × List String × List String :=
  let (wild_set, wild_links, printed) := acc
  match env.lstatMode wild_file with
  | .sdir => acc
  | .sfile .lnk => (wild_set, wild_links ++ [wild_file], printed ++ ["link: " ++ wild_file])
  | .sfile .chr => acc
  | .sfile .blk => acc
  | .sfile .other => acc
  | .sfile .reg =>
      if wild_links.any (fun l => startsWithStr wild_file l) then acc
      else
        match root_dir with
        | none => (insert wild_file wild_set, wild_links, printed)
        | some r =>
            (insert (env.relpath wild_file r) wild_set, wild_links,
              printed ++ ["add: " ++ wild_file])

/-- The absolute pattern: `subpath` itself without a root, else
`f'{root_dir}/{subpath}'`. -/
def absSubpath (root_dir : Option String) (subpath : String) : String :=
  match root_dir with
  | none => subpath
  | some r => r ++ "/" ++ subpath

/-- One iteration of the `for subpath in subpaths` loop of
`PathMatcher.__init__` over the state `(prefixes, files_set, printed)`:
a pattern containing `*` is glob-expanded and filtered by `globStep`; else a
pattern naming an existing directory is appended to `prefixes` with a `/`
added; else the pattern is added to `files_set` verbatim. -/
def subpathStep (env : MatcherEnv) (root_dir : Option String)
    (acc : List String × Finset String × List String) (subpath : String) :
    List String × Finset String × List String :=
  let (prefixes, files_set, printed) := acc
  let abs_subpath := absSubpath root_dir subpath
  if hasStar subpath then
    let folded := (env.globList abs_subpath).foldl (globStep env root_dir) (∅, [], printed)
    (prefixes, files_set ∪ folded.1, folded.2.2)
  else if env.isdir abs_subpath then
    match root_dir with
    | none => (prefixes ++ [abs_subpath ++ "/"], files_set, printed)
    | some _ => (prefixes ++ [subpath ++ "/"], files_set, printed)
  else
    match root_dir with
    | none => (prefixes, insert abs_subpath files_set, printed)
    | some _ => (prefixes, insert subpath files_set, printed)

/-- `PathMatcher.__init__(root_dir, subpaths)`: the root is
`os.path.realpath(os.path.abspath(root_dir))` when given; `subpaths` is
already normalised to a list (`None` becomes `[]`, a single value becomes a
one-element list).  Returns the constructed matcher together with the lines
printed to standard output during construction, in order. -/
def PathMatcher.build (env : MatcherEnv) (root_dir? : Option String)
    (subpaths : List String) : PathMatcher × List String :=
  let root := root_dir?.map env.realpath
  let folded := subpaths.foldl (subpathStep env root) ([], ∅, [])
  (⟨folded.1, folded.2.1⟩, folded.2.2)

/-- `PathMatcher.matches(path)`: true when `path` starts with a stored
directory prefix, else membership of `path` in the stored file set. -/
def PathMatcher.matches (pm : PathMatcher) (path : String) : Bool :=
  pm.prefixes.any (fun p => startsWithStr path p) || decide (path ∈ pm.files_set)

/-! ### Concrete fixtures for the claims -/

/-- End-to-end fixture: a root containing exactly `.git/config`, `README`,
`lib/a.py`, `lib/b.py`, with `.git` and `lib` directories and all other
entries regular files. -/
def c2tree : FSNode :=
  .dir true
    [ (".git", .dir true [("config", .file .reg)]),
      ("README", .file .reg),
      ("lib", .dir true [("a.py", .file .reg), ("b.py", .file .reg)]) ]

/-- Environment for the trailing-separator fixture: under root `R` the
directory `a/b` exists (`os.path.isdir` tolerates the trailing slash of the
probed path `R/a/b/`), no glob patterns are used. -/
def env3 : MatcherEnv :=
  { isdir := fun s => s = "R/a/b/"
    globList := fun _ => []
    lstatMode := fun _ => .sfile .other
    realpath := fun s => s
    relpath := fun p _ => p }

/-- Environment for the exact-path law: no filesystem object exists, so
`os.path.isdir` is false everywhere and glob is never consulted. -/
def env4 : MatcherEnv :=
  { isdir := fun _ => false
    globList := fun _ => []
    lstatMode := fun _ => .sfile .other
    realpath := fun s => s
    relpath := fun p _ => p }

/-- Environment for the glob law: under root `R` the regular files are
`src/a.c`, `src/b.c`, `src/sub/c.c`; `glob.glob('R/src/**/*.c',
recursive=True)` returns exactly those three files (in listing order), and
`os.path.relpath(p, 'R')` strips the leading `R/`. -/
def env6 : MatcherEnv :=
  { isdir := fun s => s = "R" || s = "R/src" || s = "R/src/sub"
    globList := fun p =>
      if p = "R/src/**/*.c" then ["R/src/a.c", "R/src/b.c", "R/src/sub/c.c"] else []
    lstatMode := fun s =>
      if s = "R" || s = "R/src" || s = "R/src/sub" then .sdir else .sfile .reg
    realpath := fun s => s
    relpath := fun p r => String.mk (p.data.drop (r.data.length + 1)) }

/-- Environment for the construction-output fixture: under root `R` the
pattern `*.c` glob-expands to a symbolic link `R/x.c` followed by a regular
file `R/y.c`. -/
def env9 : MatcherEnv :=
  { isdir := fun _ => false
    globList := fun p => if p = "R/*.c" then ["R/x.c", "R/y.c"] else []
    lstatMode := fun s => if s = "R/x.c" then .sfile .lnk else .sfile .reg
    realpath := fun s => s
    relpath := fun p r => String.mk (p.data.drop (r.data.length + 1)) }

/-! ### Claims settled by direct evaluation -/

/-- C2, counterexample: on the fixture root `{.git/config, README, lib/a.py,
lib/b.py}` with the default exclusions, `find_unique_paths` does not return
`["README", "lib/a.py", "lib/b.py"]` — the subdirectory `lib` is fully
recursed before the root's own file `README` is appended. -/
theorem c2_claimed_order_false :
    ¬ find_unique_paths c2tree DefaultExcludeFileNames
        = Except.ok ["README", "lib/a.py", "lib/b.py"] := by
  intro h
  rw [show find_unique_paths c2tree DefaultExcludeFileNames
      = Except.ok ["lib/a.py", "lib/b.py", "README"] from rfl] at h
  simp at h

/-- C2, amended: on the fixture root the enumeration succeeds and returns
`["lib/a.py", "lib/b.py", "README"]` — depth-first-then-local order with
`.git` entirely absent. -/
theorem c2_enumeration_result :
    find_unique_paths c2tree DefaultExcludeFileNames
      = Except.ok ["lib/a.py", "lib/b.py", "README"] := rfl

/-- C3: with root `R` and existing directory `a/b`, the pattern `"a/b/"`
(no wildcard, trailing separator) is classified as a directory-prefix
pattern, but the constructor appends a second separator, storing the prefix
`"a/b//"`; consequently `matches("a/b/c")` is false, contradicting both the
claim and the source's own header comment that a trailing slash means
"include everything from this folder" (`matches("a/bx/c")` is false as the
claim says). -/
theorem c3_trailing_separator_result :
    (PathMatcher.build env3 (some "R") ["a/b/"]).1.prefixes = ["a/b//"]
    ∧ (PathMatcher.build env3 (some "R") ["a/b/"]).1.matches "a/b/c" = false
    ∧ (PathMatcher.build env3 (some "R") ["a/b/"]).1.matches "a/bx/c" = false := by
  refine ⟨rfl, by decide, by decide⟩

/-- C4: `matches(path)` is true exactly when `path` starts with a stored
directory-prefix pattern or is a member of the exact-path set, with no other
outcome; in particular, for a matcher built with the single pattern
`"x/y.txt"` and no root (the path names no existing directory),
`matches("x/y.txt")` is true and `matches("x/y.txt.bak")` is false. -/
theorem c4_matches_semantics :
    (∀ (pm : PathMatcher) (path : String),
      pm.matches path = true ↔
        (∃ p ∈ pm.prefixes, startsWithStr path p = true) ∨ path ∈ pm.files_set)
    ∧ (PathMatcher.build env4 none ["x/y.txt"]).1.matches "x/y.txt" = true
    ∧ (PathMatcher.build env4 none ["x/y.txt"]).1.matches "x/y.txt.bak" = false := by
  refine ⟨fun pm path => ?_, by decide, by decide⟩
  simp [PathMatcher.matches, List.any_eq_true]

/-- C6, counterexample: on the glob fixture the exact-path set is not
`{a.c, b.c, sub/c.c}` — `os.path.relpath` is taken relative to the matcher
root `R`, not relative to the globbed subdirectory `src`. -/
theorem c6_claimed_set_false :
    (PathMatcher.build env6 (some "R") ["src/**/*.c"]).1.files_set
      ≠ {"a.c", "b.c", "sub/c.c"} := by decide

/-- C6, amended: on the glob fixture the exact-path set equals
`{src/a.c, src/b.c, src/sub/c.c}`, the three matched regular files made
relative to the root `R`. -/
theorem c6_glob_set_result :
    (PathMatcher.build env6 (some "R") ["src/**/*.c"]).1.files_set
      = {"src/a.c", "src/b.c", "src/sub/c.c"} := by decide

/-- C9: construction is not output-free — on a fixture whose glob expansion
meets a symbolic link and then adds a regular file under a root, the
constructor prints a `link:` line and an `add:` line to standard output
(left-over debug prints in the source), so the printed-line list is
non-empty. -/
theorem c9_construction_prints :
    (PathMatcher.build env9 (some "R") ["*.c"]).2 = ["link: R/x.c", "add: R/y.c"]
    ∧ (PathMatcher.build env9 (some "R") ["*.c"]).2 ≠ [] := by
  refine ⟨rfl, by decide⟩

/-! ### C5: the glob-expansion filtering policy -/

/-- Conversion applied to a surviving glob match: the path itself without a
root, else the path made relative to the root. -/
def globConv (env : MatcherEnv) (root_dir : Option String) (w : String) : String :=
  match root_dir with
  | none => w
  | some r => env.relpath w r

/-- Spec-side statement of the glob-expansion policy, written after the
spec's sentences: walk the matches in order with the remembered link
prefixes; a directory, character or block special file, or other non-regular
file contributes nothing; a symbolic link is dropped and remembered as a
link prefix; a regular file whose path starts with a remembered link prefix
is dropped; every surviving match is converted and added to the set. -/
def specGlobSet (env : MatcherEnv) (conv : String → String) :
    List String → List String → Finset String
  | _, [] => ∅
  | links, w :: rest =>
      match env.lstatMode w with
      | .sdir => specGlobSet env conv links rest
      | .sfile .lnk => specGlobSet env conv (links ++ [w]) rest
      | .sfile .reg =>
          if links.any (fun l => startsWithStr w l) then specGlobSet env conv links rest
          else insert (conv w) (specGlobSet env conv links rest)
      | .sfile _ => specGlobSet env conv links rest

/-- The exact-path component of the glob loop's fold equals the spec-side
set, for any starting set, remembered links, and printed lines. -/
theorem globFold_eq_specGlobSet (env : MatcherEnv) (root_dir : Option String)
    (wl : List String) : ∀ (ws : Finset String) (links printed : List String),
    (wl.foldl (globStep env root_dir) (ws, links, printed)).1
      = ws ∪ specGlobSet env (globConv env root_dir) links wl := by
  induction wl with
  | nil => intro ws links printed; simp [specGlobSet]
  | cons w rest ih =>
      intro ws links printed
      simp only [List.foldl_cons, specGlobSet, globStep]
      rcases hm : env.lstatMode w with _ | m
      · simp [hm, ih]
      · cases m with
        | reg =>
            simp only [hm]
            by_cases hl : links.any (fun l => startsWithStr w l)
            · simp [hl, ih]
            · simp only [hl, Bool.false_eq_true, if_false, if_neg]
              cases root_dir with
              | none => simp [globConv, ih, Finset.union_insert, Finset.insert_union]
              | some r => simp [globConv, ih, Finset.union_insert, Finset.insert_union]
        | lnk => simp [hm, ih]
        | chr => simp [hm, ih]
        | blk => simp [hm, ih]
        | other => simp [hm, ih]

/-- C5: for a matcher built from a single glob pattern, the exact-path set is
exactly the spec's filtered, converted set of glob matches: non-regular
matches dropped, symlinks dropped and remembered, later matches starting
with a remembered symlink path dropped, survivors converted relative to the
root when one is set. -/
theorem c5_glob_filtering (env : MatcherEnv) (root_dir? : Option String)
    (p : String) (h : hasStar p = true) :
    (PathMatcher.build env root_dir? [p]).1.files_set
      = specGlobSet env (globConv env (root_dir?.map env.realpath)) []
          (env.globList (absSubpath (root_dir?.map env.realpath) p)) := by
  simp only [PathMatcher.build, List.foldl_cons, List.foldl_nil, subpathStep, h, if_true]
  rw [globFold_eq_specGlobSet]
  simp

/-- Witness for C5 at the glob fixture. -/
theorem c5_glob_filtering_witness :
    hasStar "src/**/*.c" = true
    ∧ (PathMatcher.build env6 (some "R") ["src/**/*.c"]).1.files_set
        = specGlobSet env6 (globConv env6 ((some "R").map env6.realpath)) []
            (env6.globList (absSubpath ((some "R").map env6.realpath) "src/**/*.c")) :=
  ⟨by decide, c5_glob_filtering env6 (some "R") "src/**/*.c" (by decide)⟩

/-! ### C8: error propagation -/

mutual
/-- True when the enumeration starting at this node raises a filesystem
error: the node is not a directory (the initial `os.listdir` fails), or it is
an unreadable directory, or some non-excluded directory child recursively
fails. -/
def hasFailureNode (excl : List String) : FSNode → Bool
  | .file _ => true
  | .dir false _ => true
  | .dir true es => hasFailureEntries excl es

/-- Failure among the visited children of a readable directory. -/
def hasFailureEntries (excl : List String) : List (String × FSNode) → Bool
  | [] => false
  | (n, c) :: rest =>
      (!(excl.contains n) && isDirNode c && hasFailureNode excl c)
        || hasFailureEntries excl rest
end

/-- Mapping the ordered insertion of a record through a function that keeps
the name component commutes with the insertion. -/
theorem map_orderedInsert_name {α β : Type}
    (f : String × FSNode × α → String × FSNode × β)
    (hf : ∀ i, (f i).1 = i.1) (x : String × FSNode × α)
    (l : List (String × FSNode × α)) :
    (List.orderedInsert (fun i j => strLe i.1 j.1 = true) x l).map f
      = List.orderedInsert (fun i j => strLe i.1 j.1 = true) (f x) (l.map f) := by
  induction l with
  | nil => simp [List.orderedInsert]
  | cons b bs ih =>
      simp only [List.orderedInsert, List.map_cons]
      by_cases hc : strLe x.1 b.1 = true
      · rw [if_pos hc, if_pos (by rw [hf, hf]; exact hc)]
        simp
      · rw [if_neg hc, if_neg (by rw [hf, hf]; exact hc)]
        simp [ih]

/-- Sorting records by name commutes with a map that keeps the name. -/
theorem sortInfos_map {α β : Type} (f : String × FSNode × α → String × FSNode × β)
    (hf : ∀ i, (f i).1 = i.1) (l : List (String × FSNode × α)) :
    sortInfos (l.map f) = (sortInfos l).map f := by
  induction l with
  | nil => rfl
  | cons x xs ih =>
      simp only [sortInfos, List.insertionSort, List.map_cons] at *
      rw [ih, map_orderedInsert_name f hf]

/-- Replace a pure child record's recursive result by the guarded error-aware
recursive call on the same child. -/
def eFun (excl : List String) (dir_path : String) (i : String × FSNode × List String) :
    String × FSNode × Except String (List String) :=
  (i.1, i.2.1,
    if excl.contains i.1 then Except.ok []
    else scan_pathE excl (joinPath dir_path i.1) i.2.1)

/-- The error-aware child records are the pure child records with the third
component replaced by the guarded recursive call. -/
theorem scan_entriesE_eq_map (excl : List String) (dir_path : String)
    (es : List (String × FSNode)) :
    scan_entriesE excl dir_path es
      = (scan_entries excl dir_path es).map (eFun excl dir_path) := by
  induction es with
  | nil => rfl
  | cons e rest ih => cases e with
      | mk n c => simp [scan_entriesE, scan_entries, eFun, ih]

/-- Every child contributes its record to `scan_entries`. -/
theorem mem_scan_entries (excl : List String) (dir_path : String)
    {es : List (String × FSNode)} {n : String} {c : FSNode} (h : (n, c) ∈ es) :
    (n, c, scan_path excl (joinPath dir_path n) c) ∈ scan_entries excl dir_path es := by
  induction es with
  | nil => cases h
  | cons e rest ih =>
      cases e with
      | mk n' c' =>
          rcases List.mem_cons.mp h with h' | h'
          · rw [show n = n' from congrArg Prod.fst h',
              show c = c' from congrArg Prod.snd h']
            exact List.mem_cons_self _ _
          · exact List.mem_cons_of_mem _ (ih h')

/-- Every record of `scan_entries` comes from a child and carries that
child's recursive scan. -/
theorem scan_entries_mem_inv (excl : List String) (dir_path : String)
    {es : List (String × FSNode)} {i : String × FSNode × List String}
    (h : i ∈ scan_entries excl dir_path es) :
    (i.1, i.2.1) ∈ es ∧ i.2.2 = scan_path excl (joinPath dir_path i.1) i.2.1 := by
  induction es with
  | nil => cases h
  | cons e rest ih =>
      cases e with
      | mk n c =>
          rcases List.mem_cons.mp h with h' | h'
          · subst h'; exact ⟨List.mem_cons_self _ _, rfl⟩
          · exact ⟨List.mem_cons_of_mem _ (ih h').1, (ih h').2⟩

/-- If every listed result is a success with the given value, the sequenced
subdirectory results succeed with the concatenation. -/
theorem seqResults_all_ok {α : Type} (l : List α) (g : α → Except String (List String))
    (g' : α → List String) (h : ∀ x ∈ l, g x = Except.ok (g' x)) :
    seqResults (l.map g) = Except.ok ((l.map g').flatten) := by
  induction l with
  | nil => rfl
  | cons x xs ih =>
      simp only [List.map_cons]
      rw [h x (List.mem_cons_self _ _)]
      simp only [seqResults]
      rw [ih (fun y hy => h y (List.mem_cons_of_mem _ hy))]
      rfl

/-- If some listed result is an error, the sequenced results are an error. -/
theorem seqResults_error_of_mem {x : Except String (List String)}
    {l : List (Except String (List String))} (hx : x ∈ l) {e : String}
    (he : x = Except.error e) : ∃ e', seqResults l = Except.error e' := by
  induction l with
  | nil => cases hx
  | cons y ys ih =>
      rcases List.mem_cons.mp hx with h | h
      · subst h; rw [he]; exact ⟨e, rfl⟩
      · cases y with
        | error e'' => exact ⟨e'', rfl⟩
        | ok v =>
            rcases ih h with ⟨e', he'⟩
            refine ⟨e', ?_⟩
            simp only [seqResults, he', Except.map]

/-- A readable directory with no failing visited child: every non-excluded
directory child scans without failure. -/
theorem hasFailureEntries_false {excl : List String} {es : List (String × FSNode)}
    (h : hasFailureEntries excl es = false) :
    ∀ e ∈ es, excl.contains e.1 = false → isDirNode e.2 = true →
      hasFailureNode excl e.2 = false := by
  induction es with
  | nil => intro e he; cases he
  | cons p rest ih =>
      cases p with
      | mk n c =>
          simp only [hasFailureEntries, Bool.or_eq_false_iff, Bool.and_eq_false_iff] at h
          intro e he hex hdir
          rcases List.mem_cons.mp he with h' | h'
          · subst h'
            rcases h.1 with h'' | h''
            · rcases h'' with h3 | h3
              · simp only [hex, Bool.not_false] at h3; cases h3
              · rw [hdir] at h3; cases h3
            · exact h''
          · exact ih h.2 e h' hex hdir

/-- A readable directory with a failing visited child: some non-excluded
directory child fails. -/
theorem hasFailureEntries_true {excl : List String} {es : List (String × FSNode)}
    (h : hasFailureEntries excl es = true) :
    ∃ e ∈ es, excl.contains e.1 = false ∧ isDirNode e.2 = true ∧
      hasFailureNode excl e.2 = true := by
  induction es with
  | nil => cases h
  | cons p rest ih =>
      cases p with
      | mk n c =>
          simp only [hasFailureEntries, Bool.or_eq_true] at h
          rcases h with h | h
          · rcases (Bool.and_eq_true _ _).mp h with ⟨h1, h2⟩
            rcases (Bool.and_eq_true _ _).mp h1 with ⟨h3, h4⟩
            exact ⟨(n, c), List.mem_cons_self _ _,
              by simpa using h3, h4, h2⟩
          · rcases ih h with ⟨e, he, h1, h2, h3⟩
            exact ⟨e, List.mem_cons_of_mem _ he, h1, h2, h3⟩

/-- Unfolding of the pure scan on a directory. -/
theorem scan_path_dir (excl : List String) (d : String) (r : Bool)
    (es : List (String × FSNode)) :
    scan_path excl d (.dir r es)
      = ((((sortInfos (scan_entries excl d es)).filter
            (fun i => !(excl.contains i.1))).map
          (fun i => if isDirNode i.2.1 then i.2.2 else [])).flatten)
        ++ ((sortInfos (scan_entries excl d es)).filter
            (fun i => !(excl.contains i.1))).filterMap
          (fun i =>
            match i.2.1 with
            | FSNode.file FMode.reg => some (joinPath d i.1)
            | _ => none) := rfl

/-- Unfolding of the error-aware scan on a readable directory, expressed over
the pure child records. -/
theorem scan_pathE_dir (excl : List String) (d : String)
    (es : List (String × FSNode)) :
    scan_pathE excl d (.dir true es)
      = (seqResults (((sortInfos (scan_entries excl d es)).filter
            (fun i => !(excl.contains i.1))).map
          (fun i => if isDirNode i.2.1 then (eFun excl d i).2.2 else Except.ok []))).map
        (fun sub => sub ++ ((sortInfos (scan_entries excl d es)).filter
            (fun i => !(excl.contains i.1))).filterMap
          (fun i =>
            match i.2.1 with
            | FSNode.file FMode.reg => some (joinPath d i.1)
            | _ => none)) := by
  show (seqResults (((sortInfos (scan_entriesE excl d es)).filter
          (fun i => !(excl.contains i.1))).map
        (fun i => if isDirNode i.2.1 then i.2.2 else Except.ok []))).map
      (fun sub => sub ++ ((sortInfos (scan_entriesE excl d es)).filter
          (fun i => !(excl.contains i.1))).filterMap
        (fun i =>
          match i.2.1 with
          | FSNode.file FMode.reg => some (joinPath d i.1)
          | _ => none)) = _
  rw [scan_entriesE_eq_map, sortInfos_map (eFun excl d) (fun i => rfl)]
  rw [List.filter_map]
  rw [show ((fun i => !(excl.contains i.1)) ∘ eFun excl d)
      = (fun i : String × FSNode × List String => !(excl.contains i.1)) from rfl]
  rw [List.map_map, List.filterMap_map]
  rfl

/-- The error-aware scan fails exactly when a visited directory fails, and
otherwise returns the pure scan's full result. -/
theorem scan_pathE_correct (excl : List String) (t : FSNode) : ∀ d : String,
    (hasFailureNode excl t = true → ∃ e, scan_pathE excl d t = Except.error e)
    ∧ (hasFailureNode excl t = false →
        scan_pathE excl d t = Except.ok (scan_path excl d t)) := by
  induction t using FSNode.inductionOn with
  | hfile m =>
      intro d
      exact ⟨fun _ => ⟨d, rfl⟩, fun h => by simp [hasFailureNode] at h⟩
  | hdir r es ih =>
      intro d
      cases r with
      | false =>
          exact ⟨fun _ => ⟨d, rfl⟩, fun h => by simp [hasFailureNode] at h⟩
      | true =>
          constructor
          · intro hfail
            simp only [hasFailureNode] at hfail
            rcases hasFailureEntries_true hfail with ⟨⟨n, c⟩, hmem, hex, hdirb, hfc⟩
            rcases (ih (n, c) hmem (joinPath d n)).1 hfc with ⟨err, herr⟩
            have hrec : (n, c, scan_path excl (joinPath d n) c)
                ∈ (sortInfos (scan_entries excl d es)).filter
                  (fun i => !(excl.contains i.1)) := by
              apply List.mem_filter.mpr
              refine ⟨?_, by simpa using hex⟩
              exact ((List.perm_insertionSort _ _).mem_iff).mpr
                (mem_scan_entries excl d hmem)
            have hx : (fun i : String × FSNode × List String =>
                  if isDirNode i.2.1 then (eFun excl d i).2.2 else Except.ok [])
                  (n, c, scan_path excl (joinPath d n) c) = Except.error err := by
              simp only [hdirb, if_true, eFun]
              simp only [show excl.contains n = false from by simpa using hex,
                Bool.false_eq_true, if_false]
              exact herr
            rcases seqResults_error_of_mem
              (List.mem_map_of_mem (fun i : String × FSNode × List String =>
                if isDirNode i.2.1 then (eFun excl d i).2.2 else Except.ok []) hrec)
              hx with ⟨e', he'⟩
            refine ⟨e', ?_⟩
            rw [scan_pathE_dir, he']
            rfl
          · intro hok
            simp only [hasFailureNode] at hok
            have hchild := hasFailureEntries_false hok
            rw [scan_pathE_dir, scan_path_dir,
              seqResults_all_ok _ _ (fun i => if isDirNode i.2.1 then i.2.2 else [])
              (by
                intro x hx
                rcases List.mem_filter.mp hx with ⟨hxs, hpred⟩
                have hxl := ((List.perm_insertionSort _ _).mem_iff).mp hxs
                rcases scan_entries_mem_inv excl d hxl with ⟨hxes, hxscan⟩
                have hexf : excl.contains x.1 = false := by simpa using hpred
                by_cases hdx : isDirNode x.2.1 = true
                · have hf0 := hchild _ hxes hexf hdx
                  have hcorr := (ih (x.1, x.2.1) hxes (joinPath d x.1)).2 hf0
                  simp only [hdx, if_true, eFun, hexf, Bool.false_eq_true, if_false]
                  rw [hcorr, ← hxscan]
                · have hdx' : isDirNode x.2.1 = false := by simpa using hdx
                  simp [hdx'])]
            rfl

/-- C8: `find_unique_paths` aborts with an error exactly when some visited
filesystem operation fails (the root listing, or the listing of a
non-excluded directory reached by the recursion), returning no partial
sequence; when nothing fails the complete enumeration is returned, so no
error is silently swallowed. -/
theorem c8_error_propagation (t : FSNode) (excl : List String) :
    (hasFailureNode excl t = true → ∃ e, find_unique_paths t excl = Except.error e)
    ∧ (hasFailureNode excl t = false →
        find_unique_paths t excl = Except.ok (scan_path excl "." t)) :=
  scan_pathE_correct excl t "."

/-- Witness for C8: a root with an unreadable subdirectory aborts with an
error; the failure-free end-to-end fixture returns the complete pure scan. -/
theorem c8_error_propagation_witness :
    (∃ e, find_unique_paths (FSNode.dir true [("bad", FSNode.dir false [])])
        DefaultExcludeFileNames = Except.error e)
    ∧ find_unique_paths c2tree DefaultExcludeFileNames
        = Except.ok (scan_path DefaultExcludeFileNames "." c2tree) :=
  ⟨(c8_error_propagation (FSNode.dir true [("bad", FSNode.dir false [])])
      DefaultExcludeFileNames).1 (by decide),
   (c8_error_propagation c2tree DefaultExcludeFileNames).2 (by decide)⟩

/-! ### C1: the enumeration algorithm and its spec-side statement -/

/-- A name list without duplicates. -/
def nodupNames : List String → Bool
  | [] => true
  | n :: rest => !(rest.contains n) && nodupNames rest

/-- A legal directory-entry name: non-empty, not the special entries `.` and
`..`, and containing no path separator — exactly the names `os.listdir` can
return. -/
def validName (n : String) : Bool :=
  !(n == "") && !(n == ".") && !(n == "..") && !(n.data.contains '/')

mutual
/-- Well-formedness of a filesystem tree: within each directory the names
are pairwise distinct legal entry names.  Every tree produced by a real
filesystem satisfies this. -/
def wellFormedNode : FSNode → Bool
  | .file _ => true
  | .dir _ es => nodupNames (es.map Prod.fst) && wellFormedEntries es

/-- Well-formedness of a directory's children. -/
def wellFormedEntries : List (String × FSNode) → Bool
  | [] => true
  | (n, c) :: rest => validName n && wellFormedNode c && wellFormedEntries rest
end

theorem nodupNames_iff (l : List String) : nodupNames l = true ↔ l.Nodup := by
  induction l with
  | nil => simp [nodupNames]
  | cons n rest ih =>
      simp [nodupNames, ih, List.nodup_cons]

theorem wellFormedEntries_mem {es : List (String × FSNode)}
    (h : wellFormedEntries es = true) :
    ∀ e ∈ es, validName e.1 = true ∧ wellFormedNode e.2 = true := by
  induction es with
  | nil => intro e he; cases he
  | cons p rest ih =>
      cases p with
      | mk n c =>
          simp only [wellFormedEntries, Bool.and_eq_true] at h
          intro e he
          rcases List.mem_cons.mp he with h' | h'
          · subst h'; exact ⟨h.1.1, h.1.2⟩
          · exact ih h.2 e h'

theorem wellFormed_dir_nodup {r : Bool} {es : List (String × FSNode)}
    (h : wellFormedNode (.dir r es) = true) : (es.map Prod.fst).Nodup := by
  simp only [wellFormedNode, Bool.and_eq_true] at h
  exact (nodupNames_iff _).mp h.1

theorem wellFormed_dir_entries {r : Bool} {es : List (String × FSNode)}
    (h : wellFormedNode (.dir r es) = true) : wellFormedEntries es = true := by
  simp only [wellFormedNode, Bool.and_eq_true] at h
  exact h.2

/-- The child-record names are the children's names, in listing order. -/
theorem scan_entries_names (excl : List String) (dir_path : String)
    (es : List (String × FSNode)) :
    (scan_entries excl dir_path es).map (fun i => i.1) = es.map Prod.fst := by
  induction es with
  | nil => rfl
  | cons p rest ih => cases p with
      | mk n c => simp [scan_entries, ih]

/-- Ordered insertion commutes with projecting records to their names. -/
theorem map_fst_orderedInsert {α : Type} (x : String × FSNode × α)
    (l : List (String × FSNode × α)) :
    (List.orderedInsert (fun i j => strLe i.1 j.1 = true) x l).map (fun i => i.1)
      = List.orderedInsert (fun a b => strLe a b = true) x.1 (l.map (fun i => i.1)) := by
  induction l with
  | nil => simp [List.orderedInsert]
  | cons b bs ih =>
      simp only [List.orderedInsert, List.map_cons]
      by_cases hc : strLe x.1 b.1 = true
      · rw [if_pos hc, if_pos hc]; simp
      · rw [if_neg hc, if_neg hc]; simp [ih]

/-- Sorting records by name and projecting to names is sorting the names. -/
theorem map_fst_sortInfos {α : Type} (l : List (String × FSNode × α)) :
    (sortInfos l).map (fun i => i.1) = sortNames (l.map (fun i => i.1)) := by
  induction l with
  | nil => rfl
  | cons x xs ih =>
      simp only [sortInfos, sortNames, List.insertionSort, List.map_cons] at *
      rw [map_fst_orderedInsert, ih]

/-- In a record list with pairwise distinct names, looking a member's name up
finds that member. -/
theorem find?_name_nodup {α : Type} {l : List (String × FSNode × α)}
    (hnd : (l.map (fun i => i.1)).Nodup) {i : String × FSNode × α} (hi : i ∈ l) :
    l.find? (fun j => j.1 == i.1) = some i := by
  induction l with
  | nil => cases hi
  | cons h tl ih =>
      simp only [List.map_cons, List.nodup_cons] at hnd
      rcases List.mem_cons.mp hi with h' | h'
      · subst h'
        simp [List.find?]
      · have hne : (h.1 == i.1) = false := by
          apply beq_false_of_ne
          intro hcontra
          exact hnd.1 (hcontra ▸ (List.mem_map_of_mem (fun j => j.1) h'))
        simp only [List.find?, hne]
        exact ih hnd.2 h'

/-- A left fold appending blocks equals the initial value followed by the
flattened blocks. -/
theorem foldl_append_flatten {α β : Type} (g : α → List β) (l : List α) :
    ∀ init : List β, l.foldl (fun acc x => acc ++ g x) init = init ++ (l.map g).flatten := by
  induction l with
  | nil => intro init; simp
  | cons x xs ih => intro init; simp [ih]

/-- Flattening singleton-or-empty blocks is a filterMap. -/
theorem flatten_map_toList {α β : Type} (h : α → Option β) (l : List α) :
    (l.map (fun x => (h x).toList)).flatten = l.filterMap h := by
  induction l with
  | nil => rfl
  | cons x xs ih =>
      cases hx : h x <;> simp [List.filterMap_cons, hx, ih]

mutual
/-- Spec-side statement of the enumeration algorithm, written after the
spec's sentences: list the immediate children of the current directory
sorted lexicographically by name; drop any child whose name is excluded;
recurse first into every child that is a directory, in sorted order,
appending each recursion's result; after all subdirectory recursion at this
level completes, append every remaining child that is a regular file (not a
symbolic link, not a character or block device) in sorted order.  Children
are consulted by name lookup, as `scan_path` stats each listed name. -/
def specEnumNode (excl : List String) (d : String) : FSNode → List String
  | .file _ => []
  | .dir _ es =>
      let infos := specEnumEntries excl d es
      let kept := (sortNames (infos.map (fun i => i.1))).filter
        (fun n => !(excl.contains n))
      let afterDirs := kept.foldl (fun acc n =>
        match infos.find? (fun i => i.1 == n) with
        | some i => if isDirNode i.2.1 then acc ++ i.2.2 else acc
        | none => acc) []
      kept.foldl (fun acc n =>
        match infos.find? (fun i => i.1 == n) with
        | some i =>
            match i.2.1 with
            | FSNode.file FMode.reg => acc ++ [joinPath d n]
            | _ => acc
        | none => acc) afterDirs

/-- Child records for `specEnumNode`. -/
def specEnumEntries (excl : List String) (d : String) :
    List (String × FSNode) → List (String × FSNode × List String)
  | [] => []
  | (n, c) :: rest =>
      (n, c, specEnumNode excl (joinPath d n) c) :: specEnumEntries excl d rest
end

/-- Folding the sorted kept names through the directory-recursion step,
resolving each name to its record, appends the directory children's results
in order. -/
theorem foldl_dirs_lookup {l ks : List (String × FSNode × List String)}
    (hlook : ∀ i ∈ ks, l.find? (fun j => j.1 == i.1) = some i) :
    ∀ init : List String, (ks.map (fun i => i.1)).foldl (fun acc n =>
        match l.find? (fun j => j.1 == n) with
        | some i => if isDirNode i.2.1 then acc ++ i.2.2 else acc
        | none => acc) init
      = init ++ (ks.map (fun i => if isDirNode i.2.1 then i.2.2 else [])).flatten := by
  induction ks with
  | nil => intro init; simp
  | cons x xs ih =>
      intro init
      simp only [List.map_cons, List.foldl_cons, hlook x (List.mem_cons_self _ _)]
      have ihx := ih (fun i hi => hlook i (List.mem_cons_of_mem _ hi))
      by_cases hdx : isDirNode x.2.1 = true
      · simp [hdx, ihx, List.append_assoc]
      · have hdx' : isDirNode x.2.1 = false := by simpa using hdx
        simp [hdx', ihx]

/-- Folding the sorted kept names through the local-file step, resolving each
name to its record, appends the regular files' paths in order. -/
theorem foldl_locals_lookup (d : String) {l ks : List (String × FSNode × List String)}
    (hlook : ∀ i ∈ ks, l.find? (fun j => j.1 == i.1) = some i) :
    ∀ init : List String, (ks.map (fun i => i.1)).foldl (fun acc n =>
        match l.find? (fun j => j.1 == n) with
        | some i =>
            match i.2.1 with
            | FSNode.file FMode.reg => acc ++ [joinPath d n]
            | _ => acc
        | none => acc) init
      = init ++ ks.filterMap (fun i =>
          match i.2.1 with
          | FSNode.file FMode.reg => some (joinPath d i.1)
          | _ => none) := by
  induction ks with
  | nil => intro init; simp
  | cons x xs ih =>
      intro init
      simp only [List.map_cons, List.foldl_cons, hlook x (List.mem_cons_self _ _)]
      have ihx := ih (fun i hi => hlook i (List.mem_cons_of_mem _ hi))
      cases hm : x.2.1 with
      | file fm =>
          cases fm <;>
            simp [List.filterMap_cons, hm, ihx, List.append_assoc]
      | dir rr ees =>
          simp [List.filterMap_cons, hm, ihx]

/-- C1 core: the enumeration computed by the source equals the spec-side
algorithm on every well-formed tree, at every directory level. -/
theorem c1_refinement (excl : List String) (t : FSNode) :
    wellFormedNode t = true → ∀ d : String,
      scan_path excl d t = specEnumNode excl d t := by
  induction t using FSNode.inductionOn with
  | hfile m => intro _ d; rfl
  | hdir r es ih =>
      intro hwf d
      have hents := wellFormedEntries_mem (wellFormed_dir_entries hwf)
      have hrecs : specEnumEntries excl d es = scan_entries excl d es := by
        clear hwf
        induction es with
        | nil => rfl
        | cons p rest ihes =>
            cases p with
            | mk n c =>
                simp only [specEnumEntries, scan_entries]
                rw [← ih (n, c) (List.mem_cons_self _ _)
                    ((hents (n, c) (List.mem_cons_self _ _)).2) (joinPath d n),
                  ihes (fun e he => ih e (List.mem_cons_of_mem _ he))
                    (fun e he => hents e (List.mem_cons_of_mem _ he))]
      have hnd : ((scan_entries excl d es).map (fun i => i.1)).Nodup := by
        rw [scan_entries_names]
        exact wellFormed_dir_nodup hwf
      have hlook : ∀ i ∈ (sortInfos (scan_entries excl d es)).filter
          (fun i => !(excl.contains i.1)),
          (scan_entries excl d es).find? (fun j => j.1 == i.1) = some i := by
        intro i hi
        apply find?_name_nodup hnd
        exact ((List.perm_insertionSort _ _).mem_iff).mp (List.mem_filter.mp hi).1
      have hkn : (sortNames ((scan_entries excl d es).map (fun i => i.1))).filter
            (fun n => !(excl.contains n))
          = ((sortInfos (scan_entries excl d es)).filter
            (fun i => !(excl.contains i.1))).map (fun i => i.1) := by
        rw [← map_fst_sortInfos, List.filter_map]
        rfl
      show scan_path excl d (.dir r es) = specEnumNode excl d (.dir r es)
      rw [scan_path_dir]
      simp only [specEnumNode]
      rw [hrecs, hkn, foldl_dirs_lookup hlook, foldl_locals_lookup d hlook]
      simp

/-- C1: on every well-formed root, the enumeration lists each visited
directory's children sorted lexicographically by name, recurses first into
every directory child in sorted order, and only after that level's recursion
completes appends the level's own regular non-link non-device files in
sorted order — the source's scan equals the spec-side algorithm at every
level, and every successful `find_unique_paths` result is the spec-side
algorithm's sequence. -/
theorem c1_depth_first_then_local (excl : List String) (t : FSNode)
    (hwf : wellFormedNode t = true) :
    (∀ d : String, scan_path excl d t = specEnumNode excl d t)
    ∧ ∀ ps, find_unique_paths t excl = Except.ok ps →
        ps = specEnumNode excl "." t := by
  refine ⟨c1_refinement excl t hwf, fun ps hok => ?_⟩
  by_cases hfail : hasFailureNode excl t = true
  · rcases (scan_pathE_correct excl t ".").1 hfail with ⟨e, he⟩
    rw [show find_unique_paths t excl = scan_pathE excl "." t from rfl, he] at hok
    cases hok
  · have h2 := (scan_pathE_correct excl t ".").2 (by simpa using hfail)
    rw [show find_unique_paths t excl = scan_pathE excl "." t from rfl, h2] at hok
    rw [← Except.ok.inj hok, c1_refinement excl t hwf "."]

/-- Witness for C1 at the end-to-end fixture. -/
theorem c1_depth_first_then_local_witness :
    wellFormedNode c2tree = true
    ∧ scan_path DefaultExcludeFileNames "." c2tree
        = specEnumNode DefaultExcludeFileNames "." c2tree
    ∧ ["lib/a.py", "lib/b.py", "README"]
        = specEnumNode DefaultExcludeFileNames "." c2tree :=
  ⟨by decide,
   (c1_depth_first_then_local DefaultExcludeFileNames c2tree (by decide)).1 ".",
   (c1_depth_first_then_local DefaultExcludeFileNames c2tree (by decide)).2
     ["lib/a.py", "lib/b.py", "README"] rfl⟩

/-! ### C7 and C10: the set of enumerated paths -/

/-- Join path components with the `/` separator (a single component is the
bare name). -/
def joinComps : List String → String
  | [] => ""
  | [n] => n
  | n :: rest => n ++ "/" ++ joinComps rest

mutual
/-- Component chains of every regular file reachable from this node through
non-excluded names only.  In the tree model a file is reachable by exactly
one path, and symbolic links are opaque leaves, so these are precisely the
files reachable by a non-excluded, non-symlinked path. -/
def regChainsNode (excl : List String) : FSNode → List (List String)
  | .file _ => []
  | .dir _ es => regChainsEntries excl es

/-- Component chains contributed by a directory's children. -/
def regChainsEntries (excl : List String) : List (String × FSNode) → List (List String)
  | [] => []
  | (n, c) :: rest =>
      (if excl.contains n then []
       else
         match c with
         | FSNode.file FMode.reg => [[n]]
         | FSNode.file _ => []
         | FSNode.dir _ _ => (regChainsNode excl c).map (fun cs => n :: cs))
      ++ regChainsEntries excl rest
end

/-- The relative paths of every regular file reachable through non-excluded,
non-symlinked names. -/
def regList (excl : List String) (t : FSNode) : List String :=
  (regChainsNode excl t).map joinComps

/-- The base name of a relative path: the part after the last separator. -/
def baseNameStr (p : String) : String :=
  String.mk ((p.data.reverse.takeWhile (fun c => c ≠ '/')).reverse)

/-- The leading component of a relative path: the part before the first
separator. -/
def headNameStr (p : String) : String :=
  String.mk (p.data.takeWhile (fun c => c ≠ '/'))

theorem regChainsEntries_eq_flatMap (excl : List String)
    (es : List (String × FSNode)) :
    regChainsEntries excl es = es.flatMap (fun e =>
      if excl.contains e.1 then []
      else
        match e.2 with
        | FSNode.file FMode.reg => [[e.1]]
        | FSNode.file _ => []
        | FSNode.dir _ _ => (regChainsNode excl e.2).map (fun cs => e.1 :: cs)) := by
  induction es with
  | nil => rfl
  | cons p rest ih =>
      cases p with
      | mk n c => rw [List.flatMap_cons, ← ih]; rfl

/-- A full `takeWhile` is the whole list. -/
theorem takeWhile_full {α : Type} (p : α → Bool) (l : List α)
    (h : (l.takeWhile p).length = l.length) : l.takeWhile p = l := by
  induction l with
  | nil => rfl
  | cons a l ih =>
      by_cases hpa : p a = true
      · rw [List.takeWhile_cons_of_pos hpa] at h ⊢
        simp only [List.length_cons] at h
        rw [ih (by omega)]
      · rw [List.takeWhile_cons_of_neg hpa] at h
        simp at h

/-- `takeWhile` stops at an explicit failing element. -/
theorem takeWhile_append_stop {α : Type} (p : α → Bool) (A B : List α) (b : α)
    (hb : p b = false) :
    List.takeWhile p (A ++ b :: B) = List.takeWhile p A := by
  rw [List.takeWhile_append]
  by_cases h : (List.takeWhile p A).length = A.length
  · rw [if_pos h, takeWhile_full p A h,
      List.takeWhile_cons_of_neg (by simp [hb])]
    simp
  · rw [if_neg h]

/-- The character-list form of a separator-joined string. -/
theorem data_join_sep (x q : String) :
    (x ++ "/" ++ q).data = x.data ++ '/' :: q.data := by
  rw [String.data_append, String.data_append, List.append_assoc]
  rfl

/-- A name without separators is its own base name. -/
theorem baseNameStr_noslash {n : String} (h : n.data.contains '/' = false) :
    baseNameStr n = n := by
  have hmem : ('/' : Char) ∉ n.data := by simpa using h
  have hall : ∀ c ∈ n.data.reverse, decide (c ≠ '/') = true := fun c hc =>
    decide_eq_true fun hco => hmem (hco ▸ List.mem_reverse.mp hc)
  rw [baseNameStr, List.takeWhile_eq_self_iff.mpr hall, List.reverse_reverse]

/-- Appending below a separator does not change the base name. -/
theorem baseNameStr_append (x q : String) :
    baseNameStr (x ++ "/" ++ q) = baseNameStr q := by
  rw [baseNameStr, baseNameStr, data_join_sep, List.reverse_append,
    List.reverse_cons, List.append_assoc, List.singleton_append,
    takeWhile_append_stop _ _ _ '/' (by simp)]

/-- A name without separators is its own head component. -/
theorem headNameStr_noslash {n : String} (h : n.data.contains '/' = false) :
    headNameStr n = n := by
  have hmem : ('/' : Char) ∉ n.data := by simpa using h
  have hall : ∀ c ∈ n.data, decide (c ≠ '/') = true := fun c hc =>
    decide_eq_true fun hco => hmem (hco ▸ hc)
  rw [headNameStr, List.takeWhile_eq_self_iff.mpr hall]

/-- The head component of a joined path is the leading name. -/
theorem headNameStr_append {n : String} (h : n.data.contains '/' = false)
    (q : String) : headNameStr (n ++ "/" ++ q) = n := by
  have hmem : ('/' : Char) ∉ n.data := by simpa using h
  have hall : ∀ c ∈ n.data, decide (c ≠ '/') = true := fun c hc =>
    decide_eq_true fun hco => hmem (hco ▸ hc)
  rw [headNameStr, data_join_sep, takeWhile_append_stop _ _ _ '/' (by simp),
    List.takeWhile_eq_self_iff.mpr hall]


/-- The joined form of a chain with at least two components. -/
theorem joinComps_cons (n : String) (cs : List String) (h : cs ≠ []) :
    joinComps (n :: cs) = n ++ "/" ++ joinComps cs := by
  cases cs with
  | nil => exact absurd rfl h
  | cons m rest => rfl

/-- At the root level the joined path is the bare relative path. -/
theorem joinPath_dot (x : String) : joinPath "." x = x := by simp [joinPath]

/-- A valid name is not `"."`. -/
theorem validName_ne_dot {n : String} (h : validName n = true) : n ≠ "." := by
  simp only [validName, Bool.and_eq_true, Bool.not_eq_true'] at h
  intro hc
  rw [hc] at h
  simp at h

/-- A valid name has no separator. -/
theorem validName_noslash {n : String} (h : validName n = true) :
    n.data.contains '/' = false := by
  simp only [validName, Bool.and_eq_true, Bool.not_eq_true'] at h
  exact h.2

/-- A valid name is non-empty. -/
theorem validName_ne_nil {n : String} (h : validName n = true) : n.data ≠ [] := by
  simp only [validName, Bool.and_eq_true, Bool.not_eq_true'] at h
  intro hc
  have hn : n = "" := String.ext (by rw [hc])
  rw [hn] at h
  simp at h

/-- A joined path is never `"."`. -/
theorem join_ne_dot (d n : String) : d ++ "/" ++ n ≠ "." := by
  intro hcontra
  have hdata : d.data ++ '/' :: n.data = ['.'] := by
    rw [← data_join_sep]
    exact congrArg String.data hcontra
  cases hdd : d.data with
  | nil => rw [hdd] at hdata; simp at hdata
  | cons a as => rw [hdd] at hdata; simp at hdata

/-- Pushing a component into a joined path associates. -/
theorem joinPath_join {d n : String} (hn : validName n = true) (q : String) :
    joinPath d (n ++ "/" ++ q) = joinPath (joinPath d n) q := by
  by_cases hd : d = "."
  · subst hd
    rw [joinPath_dot, joinPath_dot, joinPath, if_neg (validName_ne_dot hn)]
  · have hjoin : joinPath d n = d ++ "/" ++ n := by rw [joinPath, if_neg hd]
    rw [joinPath, if_neg hd, hjoin, joinPath, if_neg (join_ne_dot d n)]
    simp [String.append_assoc]

/-- Every chain of a well-formed tree is non-empty and consists of valid,
non-excluded names. -/
theorem regChains_props (excl : List String) (t : FSNode) :
    wellFormedNode t = true → ∀ cs ∈ regChainsNode excl t,
      cs ≠ [] ∧ ∀ n ∈ cs, validName n = true ∧ excl.contains n = false := by
  induction t using FSNode.inductionOn with
  | hfile m => intro _ cs hcs; cases hcs
  | hdir r es ih =>
      intro hwf cs hcs
      have hents := wellFormedEntries_mem (wellFormed_dir_entries hwf)
      rw [show regChainsNode excl (.dir r es) = regChainsEntries excl es from rfl,
        regChainsEntries_eq_flatMap] at hcs
      rcases List.mem_flatMap.mp hcs with ⟨e, he, hcse⟩
      rcases hx : excl.contains e.1 with _ | _
      · rcases hc : e.2 with m | ⟨rr, ees⟩
        · rw [hx, hc] at hcse
          cases m with
          | reg =>
              simp only [Bool.false_eq_true, if_false, List.mem_singleton] at hcse
              subst hcse
              refine ⟨by simp, ?_⟩
              intro n hn
              rw [List.mem_singleton] at hn
              subst hn
              exact ⟨(hents e he).1, hx⟩
          | lnk => simp at hcse
          | chr => simp at hcse
          | blk => simp at hcse
          | other => simp at hcse
        · rw [hx, hc] at hcse
          simp only [Bool.false_eq_true, if_false, List.mem_map] at hcse
          rcases hcse with ⟨cs', hcs', rfl⟩
          have hprops := ih e he (by rw [← hc] at *; exact (hents e he).2) cs' (hc ▸ hcs')
          refine ⟨by simp, ?_⟩
          intro n hn
          rcases List.mem_cons.mp hn with h' | h'
          · subst h'; exact ⟨(hents e he).1, hx⟩
          · exact hprops.2 n h'
      · rw [hx] at hcse
        simp at hcse

/-- Splitting each block into two parts and concatenating the part-lists
separately is a permutation of concatenating the blocks. -/
theorem flatten_map_append_perm {α β : Type} [DecidableEq β]
    (f g : α → List β) (l : List α) :
    ((l.map f).flatten ++ (l.map g).flatten).Perm
      ((l.map (fun x => f x ++ g x)).flatten) := by
  rw [List.perm_iff_count]
  intro a
  induction l with
  | nil => rfl
  | cons x xs ih =>
      simp only [List.map_cons, List.flatten_cons, List.count_append] at ih ⊢
      omega

/-- Filtering before mapping is mapping a guarded block function. -/
theorem flatten_map_filter {α β : Type} (p : α → Bool) (h : α → List β)
    (l : List α) :
    (((l.filter p).map h).flatten)
      = ((l.map (fun x => if p x then h x else [])).flatten) := by
  induction l with
  | nil => rfl
  | cons x xs ih =>
      cases hp : p x with
      | true => simp [List.filter_cons, hp, ih]
      | false => simp [List.filter_cons, hp, ih]

/-- The per-child blocks of the scan are a permutation of the per-child
converted chains. -/
theorem scan_entries_flatten_perm (excl : List String) (d : String)
    (es : List (String × FSNode))
    (hrec : ∀ e ∈ es, excl.contains e.1 = false → isDirNode e.2 = true →
        (scan_path excl (joinPath d e.1) e.2).Perm
          ((regChainsNode excl e.2).map
            (fun cs => joinPath (joinPath d e.1) (joinComps cs))))
    (hval : ∀ e ∈ es, validName e.1 = true ∧ wellFormedNode e.2 = true) :
    (((scan_entries excl d es).map (fun i =>
        if !(excl.contains i.1) then
          (if isDirNode i.2.1 then i.2.2 else [])
            ++ (match i.2.1 with
                | FSNode.file FMode.reg => some (joinPath d i.1)
                | _ => none).toList
        else [])).flatten).Perm
      (es.flatMap (fun e =>
        (if excl.contains e.1 then []
         else
           match e.2 with
           | FSNode.file FMode.reg => [[e.1]]
           | FSNode.file _ => []
           | FSNode.dir _ _ => (regChainsNode excl e.2).map (fun cs => e.1 :: cs)).map
          (fun cs => joinPath d (joinComps cs)))) := by
  induction es with
  | nil => exact List.Perm.refl _
  | cons e rest ih =>
      cases e with
      | mk n c =>
          rw [show scan_entries excl d ((n, c) :: rest)
              = (n, c, scan_path excl (joinPath d n) c) :: scan_entries excl d rest
            from rfl]
          rw [List.map_cons, List.flatten_cons, List.flatMap_cons]
          refine List.Perm.append ?_ (ih
            (fun e he hx hd => hrec e (List.mem_cons_of_mem _ he) hx hd)
            (fun e he => hval e (List.mem_cons_of_mem _ he)))
          rcases hx : excl.contains n with _ | _
          · rcases hc : c with m | ⟨rr, ees⟩
            · cases m <;> simp [hx, hc, isDirNode, joinComps]
            · simp only [hx, Bool.not_false, if_true, Bool.false_eq_true, if_false,
                isDirNode, Option.toList, List.append_nil]
              have hvc := hval (n, c) (List.mem_cons_self _ _)
              rw [hc] at hvc
              have hchains := regChains_props excl (FSNode.dir rr ees) hvc.2
              have hmapeq : ((regChainsNode excl (FSNode.dir rr ees)).map
                      (fun cs => n :: cs)).map
                    (fun cs => joinPath d (joinComps cs))
                  = (regChainsNode excl (FSNode.dir rr ees)).map
                    (fun cs => joinPath (joinPath d n) (joinComps cs)) := by
                rw [List.map_map]
                refine List.map_congr_left ?_
                intro cs hcs
                simp only [Function.comp]
                rw [joinComps_cons n cs (hchains cs hcs).1, joinPath_join hvc.1]
              rw [hmapeq]
              have hp := hrec (n, c) (List.mem_cons_self _ _) hx
              rw [hc] at hp
              exact hp rfl
          · simp [hx]

/-- The scan of a well-formed tree is a permutation of the converted chains
of its reachable regular files. -/
theorem scan_perm (excl : List String) (t : FSNode) :
    wellFormedNode t = true → ∀ d : String,
      (scan_path excl d t).Perm
        ((regChainsNode excl t).map (fun cs => joinPath d (joinComps cs))) := by
  induction t using FSNode.inductionOn with
  | hfile m => intro _ d; exact List.Perm.refl _
  | hdir r es ih =>
      intro hwf d
      have hents := wellFormedEntries_mem (wellFormed_dir_entries hwf)
      rw [scan_path_dir]
      rw [show regChainsNode excl (.dir r es) = regChainsEntries excl es from rfl,
        regChainsEntries_eq_flatMap, List.map_flatMap]
      rw [← flatten_map_toList (fun i => match i.2.1 with
          | FSNode.file FMode.reg => some (joinPath d i.1)
          | _ => none)
        ((sortInfos (scan_entries excl d es)).filter (fun i => !(excl.contains i.1)))]
      refine (flatten_map_append_perm _ _ _).trans ?_
      have hkperm : ((sortInfos (scan_entries excl d es)).filter
            (fun i => !(excl.contains i.1))).Perm
          ((scan_entries excl d es).filter (fun i => !(excl.contains i.1))) :=
        (List.perm_insertionSort _ _).filter _
      refine (List.Perm.flatten (List.Perm.map _ hkperm)).trans ?_
      rw [flatten_map_filter]
      exact scan_entries_flatten_perm excl d es
        (fun e he _ _ => ih e he (hents e he).2 (joinPath d e.1))
        hents

/-- String append is left-cancellative. -/
theorem strAppend_left_cancel {x b c : String} (h : x ++ b = x ++ c) : b = c := by
  have hd := congrArg String.data h
  rw [String.data_append, String.data_append] at hd
  exact String.ext (List.append_cancel_left hd)

/-- Every joined path contributed by a child starts with that child's
name. -/
theorem chains_block_head (excl : List String) (n : String) (c : FSNode)
    (hv : validName n = true) (hwfc : wellFormedNode c = true) :
    ∀ x ∈ ((if excl.contains n then []
        else
          match c with
          | FSNode.file FMode.reg => [[n]]
          | FSNode.file _ => []
          | FSNode.dir _ _ => (regChainsNode excl c).map (fun cs => n :: cs)).map
        joinComps), headNameStr x = n := by
  intro x hx
  cases hex : excl.contains n with
  | true => rw [hex] at hx; simp at hx
  | false =>
      rw [hex] at hx
      simp only [Bool.false_eq_true, if_false] at hx
      cases c with
      | file m =>
          cases m <;> simp_all
          exact headNameStr_noslash (validName_noslash hv)
      | dir rr ees =>
          rw [List.map_map] at hx
          rcases List.mem_map.mp hx with ⟨cs, hcs, rfl⟩
          have hne := (regChains_props excl (FSNode.dir rr ees) hwfc cs hcs).1
          simp only [Function.comp]
          rw [joinComps_cons n cs hne, headNameStr_append (validName_noslash hv)]

/-- On a well-formed tree the reachable-regular-file paths are pairwise
distinct. -/
theorem regList_nodup (excl : List String) (t : FSNode) :
    wellFormedNode t = true → ((regChainsNode excl t).map joinComps).Nodup := by
  induction t using FSNode.inductionOn with
  | hfile m => intro _; simp [regChainsNode]
  | hdir r es ih =>
      intro hwf
      have hents := wellFormedEntries_mem (wellFormed_dir_entries hwf)
      have hnames := wellFormed_dir_nodup hwf
      rw [show regChainsNode excl (.dir r es) = regChainsEntries excl es from rfl,
        regChainsEntries_eq_flatMap, List.map_flatMap, List.nodup_flatMap]
      constructor
      · intro e he
        obtain ⟨n, c⟩ := e
        cases hex : excl.contains n with
        | true => simp [hex]
        | false =>
            simp only [hex, Bool.false_eq_true, if_false]
            cases c with
            | file m => cases m <;> simp
            | dir rr ees =>
                rw [List.map_map]
                have hchains := regChains_props excl (FSNode.dir rr ees)
                  (hents (n, FSNode.dir rr ees) he).2
                have hmeq : ((regChainsNode excl (FSNode.dir rr ees)).map
                      (joinComps ∘ fun cs => n :: cs))
                    = ((regChainsNode excl (FSNode.dir rr ees)).map joinComps).map
                      (fun s => (n ++ "/") ++ s) := by
                  rw [List.map_map]
                  refine List.map_congr_left ?_
                  intro cs hcs
                  simp only [Function.comp]
                  rw [joinComps_cons n cs (hchains cs hcs).1]
                rw [hmeq]
                refine List.Nodup.map (fun a b hab => strAppend_left_cancel hab) ?_
                exact ih (n, FSNode.dir rr ees) he
                  (hents (n, FSNode.dir rr ees) he).2
      · have hpair : es.Pairwise (fun a b => a.1 ≠ b.1) := List.pairwise_map.mp hnames
        refine hpair.imp_of_mem ?_
        intro a b ha hb hne
        simp only [Function.onFun]
        intro x hxa hxb
        exact hne ((chains_block_head excl a.1 a.2 (hents a ha).1 (hents a ha).2
            x hxa).symm.trans
          (chains_block_head excl b.1 b.2 (hents b hb).1 (hents b hb).2 x hxb))

/-- The base name of a joined chain is one of its components. -/
theorem baseName_joinComps {cs : List String} (h : cs ≠ [])
    (hv : ∀ n ∈ cs, validName n = true) : baseNameStr (joinComps cs) ∈ cs := by
  induction cs with
  | nil => exact absurd rfl h
  | cons n rest ih =>
      cases rest with
      | nil =>
          rw [show joinComps [n] = n from rfl,
            baseNameStr_noslash (validName_noslash (hv n (List.mem_cons_self _ _)))]
          exact List.mem_cons_self _ _
      | cons m r2 =>
          rw [joinComps_cons n (m :: r2) (by simp), baseNameStr_append]
          exact List.mem_cons_of_mem _
            (ih (by simp) (fun x hx => hv x (List.mem_cons_of_mem _ hx)))

/-- A successful enumeration is the pure scan. -/
theorem ok_result_eq_scan {t : FSNode} {excl ps : List String}
    (hok : find_unique_paths t excl = Except.ok ps) :
    ps = scan_path excl "." t := by
  by_cases hfail : hasFailureNode excl t = true
  · rcases (scan_pathE_correct excl t ".").1 hfail with ⟨e, he⟩
    rw [show find_unique_paths t excl = scan_pathE excl "." t from rfl, he] at hok
    cases hok
  · have h2 := (scan_pathE_correct excl t ".").2 (by simpa using hfail)
    rw [show find_unique_paths t excl = scan_pathE excl "." t from rfl, h2] at hok
    exact (Except.ok.inj hok).symm

/-- A successful enumeration of a well-formed tree is a permutation of the
reachable-regular-file paths. -/
theorem ok_result_perm_regList {t : FSNode} {excl ps : List String}
    (hok : find_unique_paths t excl = Except.ok ps)
    (hwf : wellFormedNode t = true) : ps.Perm (regList excl t) := by
  rw [ok_result_eq_scan hok]
  refine (scan_perm excl t hwf ".").trans ?_
  rw [show (regChainsNode excl t).map (fun cs => joinPath "." (joinComps cs))
      = (regChainsNode excl t).map joinComps from
    List.map_congr_left (fun cs _ => joinPath_dot (joinComps cs))]
  exact List.Perm.refl _

/-- A pattern `./`-detection never matches a path that starts with a valid
name. -/
theorem isPrefix_dotSlash_false {n : String} (hv : validName n = true)
    (rest : List Char) :
    List.isPrefixOf ['.', '/'] (n.data ++ rest) = false := by
  cases hd : n.data with
  | nil => exact absurd hd (validName_ne_nil hv)
  | cons c cs' =>
      by_cases hc : c = '.'
      · subst hc
        cases cs' with
        | nil =>
            exact absurd (String.ext (by rw [hd])) (validName_ne_dot hv)
        | cons c2 cs2 =>
            have hmem : ('/' : Char) ∉ n.data := by
              simpa using validName_noslash hv
            have hc2 : c2 ≠ '/' := by
              intro hcontra
              exact hmem (by rw [hd, hcontra]; simp)
            simp [List.isPrefixOf, beq_false_of_ne (Ne.symm hc2)]
      · simp [List.isPrefixOf, beq_false_of_ne (fun h => hc h.symm)]

/-- A joined chain of valid names never starts with `./`. -/
theorem joinComps_not_dotSlash {cs : List String} (h : cs ≠ [])
    (hv : ∀ n ∈ cs, validName n = true) :
    startsWithStr (joinComps cs) "./" = false := by
  cases cs with
  | nil => exact absurd rfl h
  | cons n rest =>
      have hvn := hv n (List.mem_cons_self _ _)
      cases rest with
      | nil =>
          rw [startsWithStr, show joinComps [n] = n from rfl,
            show ("./" : String).data = ['.', '/'] from rfl,
            ← List.append_nil n.data]
          exact isPrefix_dotSlash_false hvn []
      | cons m r2 =>
          rw [startsWithStr, joinComps_cons n (m :: r2) (by simp),
            show ("./" : String).data = ['.', '/'] from rfl,
            data_join_sep]
          exact isPrefix_dotSlash_false hvn _

/-- The children of the root directory. -/
def rootEntries : FSNode → List (String × FSNode)
  | .file _ => []
  | .dir _ es => es

/-- C7: a successful enumeration of a well-formed root contains no entry
whose base name is excluded, and contains each path of a regular file
reachable through non-excluded, non-symlinked names exactly once and
nothing else (in particular no symbolic link, character device, block
device, or other non-regular file). -/
theorem c7_enumeration_contents (t : FSNode) (excl ps : List String)
    (hok : find_unique_paths t excl = Except.ok ps)
    (hwf : wellFormedNode t = true) :
    (∀ p ∈ ps, baseNameStr p ∉ excl)
    ∧ ∀ p : String, ps.count p = if p ∈ regList excl t then 1 else 0 := by
  have hperm := ok_result_perm_regList hok hwf
  constructor
  · intro p hp
    have hpr : p ∈ regList excl t := hperm.mem_iff.mp hp
    rcases List.mem_map.mp hpr with ⟨cs, hcs, rfl⟩
    have hprops := regChains_props excl t hwf cs hcs
    have hbase := baseName_joinComps hprops.1 (fun n hn => (hprops.2 n hn).1)
    have := (hprops.2 _ hbase).2
    simpa using this
  · intro p
    rw [hperm.count_eq p]
    by_cases hmem : p ∈ regList excl t
    · rw [if_pos hmem]
      exact List.count_eq_one_of_mem (regList_nodup excl t hwf) hmem
    · rw [if_neg hmem]
      exact List.count_eq_zero_of_not_mem hmem

/-- Witness for C7 at the end-to-end fixture. -/
theorem c7_enumeration_contents_witness :
    (∀ p ∈ ["lib/a.py", "lib/b.py", "README"], baseNameStr p ∉ [".git"])
    ∧ ∀ p : String, (["lib/a.py", "lib/b.py", "README"] : List String).count p
        = if p ∈ regList [".git"] c2tree then 1 else 0 :=
  c7_enumeration_contents c2tree [".git"] ["lib/a.py", "lib/b.py", "README"]
    rfl (by decide)

/-- C10: every path in a successful enumeration of a well-formed root is the
chain of its directory components joined with `/` (a file directly inside
the root appears as its bare name), never starts with `./`, and carries no
absolute prefix; conversely every non-excluded regular file directly inside
the root appears as its bare name. -/
theorem c10_relative_path_shape (t : FSNode) (excl ps : List String)
    (hok : find_unique_paths t excl = Except.ok ps)
    (hwf : wellFormedNode t = true) :
    (∀ p ∈ ps, startsWithStr p "./" = false
      ∧ ∃ cs ∈ regChainsNode excl t, p = joinComps cs)
    ∧ ∀ e ∈ rootEntries t, e.2 = FSNode.file FMode.reg →
        excl.contains e.1 = false → e.1 ∈ ps := by
  have hperm := ok_result_perm_regList hok hwf
  constructor
  · intro p hp
    have hpr : p ∈ regList excl t := hperm.mem_iff.mp hp
    rcases List.mem_map.mp hpr with ⟨cs, hcs, rfl⟩
    have hprops := regChains_props excl t hwf cs hcs
    exact ⟨joinComps_not_dotSlash hprops.1 (fun n hn => (hprops.2 n hn).1),
      cs, hcs, rfl⟩
  · intro e he hreg hex
    cases t with
    | file m => cases he
    | dir r es =>
        have hchain : [e.1] ∈ regChainsNode excl (.dir r es) := by
          rw [show regChainsNode excl (.dir r es) = regChainsEntries excl es from rfl,
            regChainsEntries_eq_flatMap]
          refine List.mem_flatMap.mpr ⟨e, he, ?_⟩
          rw [hex, hreg]
          simp
        have : joinComps [e.1] ∈ regList excl (.dir r es) :=
          List.mem_map_of_mem joinComps hchain
        exact hperm.mem_iff.mpr this

/-- Witness for C10 at the end-to-end fixture. -/
theorem c10_relative_path_shape_witness :
    (∀ p ∈ ["lib/a.py", "lib/b.py", "README"], startsWithStr p "./" = false
      ∧ ∃ cs ∈ regChainsNode [".git"] c2tree, p = joinComps cs)
    ∧ ∀ e ∈ rootEntries c2tree, e.2 = FSNode.file FMode.reg →
        ([".git"] : List String).contains e.1 = false →
          e.1 ∈ (["lib/a.py", "lib/b.py", "README"] : List String) :=
  c10_relative_path_shape c2tree [".git"] ["lib/a.py", "lib/b.py", "README"]
    rfl (by decide)
